import Mathlib

/-!
Verification of the dependency-aware task state propagation engine.

The definitions below are a shallow embedding of the frontend's task
context module: the task data model, the `isBlocked` helper, and the
`propagateUpdates` worklist pass (queue + visited set over a mutable
id-indexed copy of the task snapshot), together with the mutation and
sync-phase error-handling paths.  JavaScript `Map` objects are embedded
as association lists with first-match lookup and in-place overwrite,
which coincides with `Map` semantics on the duplicate-free key lists the
code constructs.  The unbounded `while` loop is embedded with an explicit
fuel parameter; a fuel bound sufficient for termination on every input is
computed and proved below.  Asynchronous effects (the `setTasks` call and
the parallel best-effort sync writes, and the mutation operations'
backend calls) are embedded by passing backend results and a
failure oracle explicitly.
-/

namespace Rooftop

/-- The five task states of the `TaskState` enum. -/
inductive TaskState where
  | TODO
  | IN_PROGRESS
  | DONE
  | BLOCKED
  | BACKLOG
deriving DecidableEq, Repr

/-- The `Task` record: integer id, title, optional description, state,
blocker ids, dependent ids, timestamps, optional completion and due date. -/
structure Task where
  id : Nat
  title : String
  description : Option String
  state : TaskState
  blockers : List Nat
  dependents : List Nat
  created_at : String
  updated_at : String
  completed_at : Option String
  due_date : Option String
deriving DecidableEq, Repr

/-- `Map.get`: first entry with the given key (JS maps never hold
duplicate keys, so first-match lookup agrees with `Map` semantics). -/
def mapGet (m : List (Nat × Task)) (k : Nat) : Option Task :=
  (m.find? (fun p => p.1 == k)).map Prod.snd

/-- `Map.set`: overwrite the entry with the given key in place, else append. -/
def mapSet : List (Nat × Task) → Nat → Task → List (Nat × Task)
  | [], k, v => [(k, v)]
  | p :: rest, k, v => if p.1 = k then (k, v) :: rest else p :: mapSet rest k v

/-- `Array.from(map.values())`: values in insertion order. -/
def mapValues (m : List (Nat × Task)) : List Task := m.map Prod.snd

/-- `new Map(currentTasks.map(t => [t.id, {...t}]))`. -/
def mkMap (tasks : List Task) : List (Nat × Task) :=
  tasks.foldl (fun m t => mapSet m t.id t) []

/-- The `isBlocked` helper: a task with no blockers is not blocked;
otherwise it is blocked iff some blocker id resolves to a task whose
state is not DONE (a missing blocker does not block). -/
def isBlocked (task : Task) (tasksMap : List (Nat × Task)) : Bool :=
  if task.blockers.length = 0 then false
  else task.blockers.any (fun blockerId =>
    match mapGet tasksMap blockerId with
    | none => false
    | some blocker => blocker.state != TaskState.DONE)

/-- The state evaluation performed for each dequeued task (the
`shouldBeBlocked` / `newState` block of `propagateUpdates`). -/
def desiredState (task : Task) (tasksMap : List (Nat × Task)) : TaskState :=
  let shouldBeBlocked := isBlocked task tasksMap
  if shouldBeBlocked && !(task.state == TaskState.BLOCKED) then TaskState.BLOCKED
  else if !shouldBeBlocked && (task.state == TaskState.BLOCKED) then TaskState.TODO
  else task.state

/-- The `while (queue.length > 0)` worklist of `propagateUpdates`,
with explicit fuel.  Each iteration dequeues an id, skips it if visited,
marks it visited, skips it if absent from the working map, evaluates its
desired state, updates the map and the sync list on change, and in both
the changed and the unchanged branch enqueues the task's dependents that
are not yet visited.  (The update leaves `dependents` untouched, so
enqueueing before or after the update reads the same list.) -/
def propagateLoop : Nat → List Nat → List Nat → List (Nat × Task) →
    List (Nat × TaskState) → Option (List (Nat × Task) × List (Nat × TaskState))
  | _, [], _, tasksMap, updatesToSync => some (tasksMap, updatesToSync)
  | 0, _ :: _, _, _, _ => none
  | fuel + 1, taskId :: rest, visited, tasksMap, updatesToSync =>
    if taskId ∈ visited then propagateLoop fuel rest visited tasksMap updatesToSync
    else
      let visited' := taskId :: visited
      match mapGet tasksMap taskId with
      | none => propagateLoop fuel rest visited' tasksMap updatesToSync
      | some task =>
        let newState := desiredState task tasksMap
        let enqueued := task.dependents.filter (fun depId => !(visited'.contains depId))
        if newState ≠ task.state then
          propagateLoop fuel (rest ++ enqueued) visited'
            (mapSet tasksMap taskId { task with state := newState })
            (updatesToSync ++ [(taskId, newState)])
        else
          propagateLoop fuel (rest ++ enqueued) visited' tasksMap updatesToSync

/-- All dependent ids stored in the working map (used only for the fuel bound). -/
def depsFinset (m : List (Nat × Task)) : Finset Nat :=
  m.foldr (fun p acc => p.2.dependents.toFinset ∪ acc) ∅

/-- Total length of all dependents lists in the working map (fuel bound). -/
def totalDeps (m : List (Nat × Task)) : Nat :=
  m.foldr (fun p acc => p.2.dependents.length + acc) 0

/-- Fuel sufficient for `propagateLoop` to drain its queue (proved below). -/
def propagationFuel (initialIds : List Nat) (m : List (Nat × Task)) : Nat :=
  (initialIds.toFinset ∪ depsFinset m).card * (totalDeps m + 1) + initialIds.length + 1

/-- `propagateUpdates`: build the working map from the snapshot, run the
worklist seeded with `initialIds`, and return the converged task list
(the map's values) together with the change list queued for sync. -/
def propagateUpdates (initialIds : List Nat) (currentTasks : List Task) :
    Option (List Task × List (Nat × TaskState)) :=
  let tasksMap := mkMap currentTasks
  match propagateLoop (propagationFuel initialIds tasksMap) initialIds [] tasksMap [] with
  | some (finalMap, updatesToSync) => some (mapValues finalMap, updatesToSync)
  | none => none

/-- Reference predicate, written from the specification text: a task is
blocked iff at least one blocker id that is present in the snapshot
refers to a task with state ≠ DONE; absent blockers never block, and a
task with no blockers is never blocked. -/
def specBlocked (task : Task) (snapshot : List (Nat × Task)) : Bool :=
  task.blockers.any (fun b =>
    match mapGet snapshot b with
    | none => false
    | some blocker => blocker.state != TaskState.DONE)

/-- Reference evaluator, written from the specification text: if blocked
and current state ≠ BLOCKED, desired is BLOCKED; if not blocked and
current state = BLOCKED, desired is TODO; otherwise desired is the
current state. -/
def specDesired (task : Task) (snapshot : List (Nat × Task)) : TaskState :=
  if specBlocked task snapshot then
    if task.state ≠ TaskState.BLOCKED then TaskState.BLOCKED else task.state
  else
    if task.state = TaskState.BLOCKED then TaskState.TODO else task.state

/-- Reference checker, written from the specification text: every task of
the snapshot is BLOCKED iff it has at least one present blocker whose
state is not DONE. -/
def snapshotConsistent (tasks : List Task) : Bool :=
  tasks.all (fun t => (t.state == TaskState.BLOCKED) == specBlocked t (mkMap tasks))

/-- Two tasks agree on every field except possibly `state`, and when the
states differ the right one is an engine-written state (BLOCKED or TODO). -/
def FramePair (a b : Task) : Prop :=
  b = { a with state := b.state } ∧
  (b.state ≠ a.state → b.state = TaskState.BLOCKED ∨ b.state = TaskState.TODO)

/-- Entry-by-entry frame relation between two working maps. -/
def FrameRel (m₀ m : List (Nat × Task)) : Prop :=
  List.Forall₂ (fun p q => p.1 = q.1 ∧ FramePair p.2 q.2) m₀ m

/-- Checker: the list is a topological order for the present-blocker
graph of `m` — no element's present blocker occurs at its own position or
later.  A full such order witnesses acyclicity of the blocker graph. -/
def topoSortedB (m : List (Nat × Task)) : List Nat → Bool
  | [] => true
  | a :: rest =>
    (match mapGet m a with
     | none => true
     | some t => t.blockers.all (fun b => !(mapGet m b).isSome || !((a :: rest).contains b)))
    && topoSortedB m rest

/-- Effects the pass performs on its environment, in program order:
`setTasks` with the converged snapshot, then one state write per change
list entry (dispatched together by `Promise.all`). -/
inductive SyncEff where
  | setLocal (tasks : List Task)
  | dispatch (id : Nat) (state : TaskState)
deriving DecidableEq, Repr

/-- Effect trace of one `propagateUpdates` call: the local `setTasks`
with the converged snapshot precedes the sync-phase writes. -/
def passEffects (initialIds : List Nat) (currentTasks : List Task) :
    Option (List SyncEff) :=
  (propagateUpdates initialIds currentTasks).map (fun r =>
    SyncEff.setLocal r.1 :: r.2.map (fun u => SyncEff.dispatch u.1 u.2))

/-- Execution of an effect trace against a failure oracle.  Modelled from
the source's sync phase: all write requests are dispatched before any is
awaited, a rejected request does not cancel its siblings, no request is
retried, and the local state set by `setTasks` is not rolled back on
failure; each dispatch records whether its request failed. -/
def runEffects (fails : Nat → Bool) :
    List SyncEff → List Task → List Task × List (Nat × Bool)
  | [], localTasks => (localTasks, [])
  | SyncEff.setLocal ts :: rest, _ => runEffects fails rest ts
  | SyncEff.dispatch id _ :: rest, localTasks =>
    let r := runEffects fails rest localTasks
    (r.1, (id, fails id) :: r.2)

/-- The `createTask` mutation: the backend call runs first; on failure
the error is re-thrown and no local state is applied, on success the new
task is appended locally. -/
def createTask (tasks : List Task) (backendResult : Except String Task) :
    List Task × Option String :=
  match backendResult with
  | Except.error err => (tasks, some err)
  | Except.ok newTask => (tasks ++ [newTask], none)

/-- The `updateTask` mutation: the backend patch runs first; on failure
the error is re-thrown and no local state is applied; on success the
returned task replaces the local entry and a pass seeded with its id
runs (whose `setTasks` installs the converged snapshot). -/
def updateTask (tasks : List Task) (id : Nat)
    (backendResult : Except String Task) : List Task × Option String :=
  match backendResult with
  | Except.error err => (tasks, some err)
  | Except.ok updatedTask =>
    let newTasks := tasks.map (fun t => if t.id == id then updatedTask else t)
    (match propagateUpdates [id] newTasks with
     | some r => r.1
     | none => newTasks, none)

/-- The `addDependency` mutation: the backend edge insert runs first,
then a fresh snapshot fetch; failure of either re-throws and applies no
local state; on success a pass seeded with the edited task id runs. -/
def addDependency (tasks : List Task) (taskId : Nat)
    (addResult : Except String Unit) (fetchResult : Except String (List Task)) :
    List Task × Option String :=
  match addResult with
  | Except.error err => (tasks, some err)
  | Except.ok _ =>
    match fetchResult with
    | Except.error err => (tasks, some err)
    | Except.ok data =>
      (match propagateUpdates [taskId] data with
       | some r => r.1
       | none => data, none)

/-- The `removeDependency` mutation: same control flow as `addDependency`
with the backend edge removal first. -/
def removeDependency (tasks : List Task) (taskId : Nat)
    (removeResult : Except String Unit) (fetchResult : Except String (List Task)) :
    List Task × Option String :=
  match removeResult with
  | Except.error err => (tasks, some err)
  | Except.ok _ =>
    match fetchResult with
    | Except.error err => (tasks, some err)
    | Except.ok data =>
      (match propagateUpdates [taskId] data with
       | some r => r.1
       | none => data, none)

/-- The `deleteTask` mutation: the backend delete runs first, then a
fresh snapshot fetch; failure of either re-throws and applies no local
state; on success every currently BLOCKED task seeds a pass (or, with
none blocked, the fresh snapshot is installed directly). -/
def deleteTask (tasks : List Task) (deleteResult : Except String Unit)
    (fetchResult : Except String (List Task)) : List Task × Option String :=
  match deleteResult with
  | Except.error err => (tasks, some err)
  | Except.ok _ =>
    match fetchResult with
    | Except.error err => (tasks, some err)
    | Except.ok data =>
      let blockedTasks := (data.filter (fun t => t.state == TaskState.BLOCKED)).map Task.id
      if blockedTasks.length > 0 then
        (match propagateUpdates blockedTasks data with
         | some r => r.1
         | none => data, none)
      else (data, none)

/-- Test fixture builder: a task with the given id, state and edges. -/
def mkTask (id : Nat) (state : TaskState) (blockers dependents : List Nat) : Task :=
  { id := id, title := "", description := none, state := state, blockers := blockers,
    dependents := dependents, created_at := "", updated_at := "", completed_at := none,
    due_date := none }

/-- Diamond fixture after C (id 3) transitioned to DONE:
D (id 4) blocked by B and C; B and C blocked by A (id 1); A, B, C DONE. -/
def diamondTasks : List Task :=
  [mkTask 1 TaskState.DONE [] [2, 3],
   mkTask 2 TaskState.DONE [1] [4],
   mkTask 3 TaskState.DONE [1] [4],
   mkTask 4 TaskState.BLOCKED [2, 3] []]

/-- Expected converged diamond: only D changed, to TODO. -/
def diamondConverged : List Task :=
  [mkTask 1 TaskState.DONE [] [2, 3],
   mkTask 2 TaskState.DONE [1] [4],
   mkTask 3 TaskState.DONE [1] [4],
   mkTask 4 TaskState.TODO [2, 3] []]

/-- Chain fixture with an inconsistent start: task 1 TODO, task 2 DONE
blocked by 1, task 3 DONE blocked by 2.  Acyclic (order 1, 2, 3). -/
def chainTasks : List Task :=
  [mkTask 1 TaskState.TODO [] [2],
   mkTask 2 TaskState.DONE [1] [3],
   mkTask 3 TaskState.DONE [2] []]

/-- Converged chain after a pass in topological order: 2 and 3 BLOCKED. -/
def chainConverged : List Task :=
  [mkTask 1 TaskState.TODO [] [2],
   mkTask 2 TaskState.BLOCKED [1] [3],
   mkTask 3 TaskState.BLOCKED [2] []]

end Rooftop

namespace Rooftop

theorem isBlocked_eq_specBlocked (task : Task) (m : List (Nat × Task)) :
    isBlocked task m = specBlocked task m := by
  unfold isBlocked specBlocked
  cases h : task.blockers with
  | nil => simp [h]
  | cons a l => simp [h]

/-- C1: the evaluator's desired state agrees with the reference
definition written from the spec, for every task and every snapshot. -/
theorem evaluator_refines_spec (task : Task) (m : List (Nat × Task)) :
    desiredState task m = specDesired task m := by
  unfold desiredState specDesired
  rw [isBlocked_eq_specBlocked]
  cases h : specBlocked task m <;> cases hs : task.state <;> simp [hs]

/-- C6: a task whose current state is DONE and that has at least one
present blocker with state ≠ DONE is assigned desired state BLOCKED by
the evaluator (the forced DONE → BLOCKED consistency override); the
evaluator is the same function for every current state. -/
theorem done_task_forced_blocked (task : Task) (m : List (Nat × Task))
    (hdone : task.state = TaskState.DONE)
    (hb : ∃ b ∈ task.blockers, ∃ t, mapGet m b = some t ∧ t.state ≠ TaskState.DONE) :
    desiredState task m = TaskState.BLOCKED := by
  obtain ⟨b, hbmem, t, hget, hne⟩ := hb
  have hblocked : isBlocked task m = true := by
    unfold isBlocked
    have hnonnil : ¬ task.blockers.length = 0 := by
      intro h0
      rw [List.length_eq_zero] at h0
      rw [h0] at hbmem
      exact absurd hbmem (List.not_mem_nil b)
    rw [if_neg hnonnil]
    refine List.any_eq_true.mpr ⟨b, hbmem, ?_⟩
    rw [hget]
    simpa using hne
  unfold desiredState
  rw [hblocked, hdone]
  simp

/-- C6 witness: in the chain fixture, task 2 is DONE with present
blocker 1 in state TODO, and the evaluator forces BLOCKED. -/
theorem done_task_forced_blocked_witness :
    desiredState (mkTask 2 TaskState.DONE [1] [3]) (mkMap chainTasks) =
      TaskState.BLOCKED :=
  done_task_forced_blocked (mkTask 2 TaskState.DONE [1] [3]) (mkMap chainTasks)
    (by decide)
    ⟨1, by decide, mkTask 1 TaskState.TODO [] [2], by decide, by decide⟩

end Rooftop

namespace Rooftop

theorem propagateLoop_cons_present (fuel taskId : Nat) (rest visited : List Nat)
    (tasksMap : List (Nat × Task)) (updatesToSync : List (Nat × TaskState))
    (task : Task) (hnv : taskId ∉ visited)
    (hget : mapGet tasksMap taskId = some task) :
    propagateLoop (fuel + 1) (taskId :: rest) visited tasksMap updatesToSync =
      if desiredState task tasksMap ≠ task.state then
        propagateLoop fuel
          (rest ++ task.dependents.filter (fun depId => !((taskId :: visited).contains depId)))
          (taskId :: visited)
          (mapSet tasksMap taskId { task with state := desiredState task tasksMap })
          (updatesToSync ++ [(taskId, desiredState task tasksMap)])
      else
        propagateLoop fuel
          (rest ++ task.dependents.filter (fun depId => !((taskId :: visited).contains depId)))
          (taskId :: visited) tasksMap updatesToSync := by
  simp only [propagateLoop]
  rw [if_neg hnv, hget]

/-- C3: dequeuing an unvisited id whose task is present continues the
pass with exactly the rest of the queue followed by every dependent id
not yet in the visited set, in the state-changed case and in the
unchanged case alike (only the working map and sync list differ). -/
theorem dequeue_enqueues_unvisited_dependents
    (fuel taskId : Nat) (rest visited : List Nat)
    (tasksMap : List (Nat × Task)) (updatesToSync : List (Nat × TaskState))
    (task : Task) (hnv : taskId ∉ visited)
    (hget : mapGet tasksMap taskId = some task) :
    ∃ m u,
      propagateLoop (fuel + 1) (taskId :: rest) visited tasksMap updatesToSync =
        propagateLoop fuel
          (rest ++ task.dependents.filter (fun depId => !((taskId :: visited).contains depId)))
          (taskId :: visited) m u ∧
      ((m = mapSet tasksMap taskId { task with state := desiredState task tasksMap } ∧
          u = updatesToSync ++ [(taskId, desiredState task tasksMap)]) ∨
        (m = tasksMap ∧ u = updatesToSync)) := by
  rw [propagateLoop_cons_present fuel taskId rest visited tasksMap updatesToSync task hnv hget]
  by_cases hch : desiredState task tasksMap ≠ task.state
  · exact ⟨_, _, by rw [if_pos hch], Or.inl ⟨rfl, rfl⟩⟩
  · exact ⟨_, _, by rw [if_neg hch], Or.inr ⟨rfl, rfl⟩⟩

/-- C3 witness: dequeuing id 3 of the diamond fixture enqueues its
dependent 4. -/
theorem dequeue_enqueues_unvisited_dependents_witness :
    ∃ m u,
      propagateLoop 6 [3] [] (mkMap diamondTasks) [] =
        propagateLoop 5
          ([] ++ (mkTask 3 TaskState.DONE [1] [4]).dependents.filter
            (fun depId => !(([3] : List Nat).contains depId)))
          [3] m u ∧
      ((m = mapSet (mkMap diamondTasks) 3
            { mkTask 3 TaskState.DONE [1] [4] with
                state := desiredState (mkTask 3 TaskState.DONE [1] [4]) (mkMap diamondTasks) } ∧
          u = [] ++ [(3, desiredState (mkTask 3 TaskState.DONE [1] [4]) (mkMap diamondTasks))]) ∨
        (m = mkMap diamondTasks ∧ u = ([] : List (Nat × TaskState)))) :=
  dequeue_enqueues_unvisited_dependents 5 3 [] [] (mkMap diamondTasks) []
    (mkTask 3 TaskState.DONE [1] [4]) (by decide) (by decide)

end Rooftop

namespace Rooftop

theorem loop_updates_keys_nodup (fuel : Nat) :
    ∀ queue visited m u mf uf,
      propagateLoop fuel queue visited m u = some (mf, uf) →
      (u.map Prod.fst).Nodup → (∀ k ∈ u.map Prod.fst, k ∈ visited) →
      (uf.map Prod.fst).Nodup := by
  induction fuel with
  | zero =>
    intro queue visited m u mf uf h hnd _
    cases queue with
    | nil =>
      simp only [propagateLoop, Option.some.injEq, Prod.mk.injEq] at h
      rw [← h.2]
      exact hnd
    | cons a l =>
      simp only [propagateLoop] at h
      exact Option.noConfusion h
  | succ n ih =>
    intro queue visited m u mf uf h hnd hsub
    cases queue with
    | nil =>
      simp only [propagateLoop, Option.some.injEq, Prod.mk.injEq] at h
      rw [← h.2]
      exact hnd
    | cons taskId rest =>
      by_cases hv : taskId ∈ visited
      · simp only [propagateLoop, if_pos hv] at h
        exact ih rest visited m u mf uf h hnd hsub
      · cases hget : mapGet m taskId with
        | none =>
          simp only [propagateLoop, if_neg hv, hget] at h
          refine ih rest (taskId :: visited) m u mf uf h hnd ?_
          intro k hk
          exact List.mem_cons_of_mem _ (hsub k hk)
        | some task =>
          rw [propagateLoop_cons_present n taskId rest visited m u task hv hget] at h
          by_cases hch : desiredState task m ≠ task.state
          · rw [if_pos hch] at h
            refine ih _ _ _ _ mf uf h ?_ ?_
            · rw [List.map_append]
              refine List.Nodup.append hnd (by simp) ?_
              intro k hk hk2
              simp only [List.map_cons, List.map_nil, List.mem_singleton] at hk2
              exact hv (hk2 ▸ hsub k hk)
            · intro k hk
              rw [List.map_append, List.mem_append] at hk
              cases hk with
              | inl hk => exact List.mem_cons_of_mem _ (hsub k hk)
              | inr hk =>
                simp only [List.map_cons, List.map_nil, List.mem_singleton] at hk
                rw [hk]
                exact List.mem_cons_self taskId visited
          · rw [if_neg hch] at h
            refine ih _ _ _ _ mf uf h hnd ?_
            intro k hk
            exact List.mem_cons_of_mem _ (hsub k hk)

/-- C7: in the diamond fixture (D blocked by B and C, both blocked by A;
A, B DONE) a single pass seeded with C after its DONE transition yields
exactly the one change entry for D, to TODO; and in every pass each task
id occurs at most once in the change list, so no task gets a duplicate
sync call. -/
theorem diamond_single_change_and_no_duplicate_sync :
    propagateUpdates [3] diamondTasks =
      some (diamondConverged, [(4, TaskState.TODO)]) ∧
    ∀ ids tasks ts upd, propagateUpdates ids tasks = some (ts, upd) →
      (upd.map Prod.fst).Nodup := by
  constructor
  · decide
  · intro ids tasks ts upd h
    simp only [propagateUpdates] at h
    cases hrun : propagateLoop (propagationFuel ids (mkMap tasks)) ids [] (mkMap tasks) [] with
    | none => rw [hrun] at h; exact absurd h (by simp)
    | some r =>
      rw [hrun] at h
      simp only [Option.some.injEq, Prod.mk.injEq] at h
      have h2 : propagateLoop (propagationFuel ids (mkMap tasks)) ids [] (mkMap tasks) [] =
          some (r.1, upd) := by
        rw [hrun, ← h.2]
      exact loop_updates_keys_nodup _ _ _ _ _ _ _ h2 (by simp) (by simp)

/-- C7 witness: the diamond change list itself, with its duplicate-free
id list. -/
theorem diamond_single_change_and_no_duplicate_sync_witness :
    propagateUpdates [3] diamondTasks =
      some (diamondConverged, [(4, TaskState.TODO)]) ∧
    (([(4, TaskState.TODO)].map Prod.fst).Nodup) :=
  ⟨diamond_single_change_and_no_duplicate_sync.1,
    diamond_single_change_and_no_duplicate_sync.2 [3] diamondTasks diamondConverged
      [(4, TaskState.TODO)] diamond_single_change_and_no_duplicate_sync.1⟩

end Rooftop

namespace Rooftop

theorem mapGet_nil (x : Nat) : mapGet [] x = none := rfl

theorem mapGet_cons (p : Nat × Task) (rest : List (Nat × Task)) (x : Nat) :
    mapGet (p :: rest) x = if p.1 = x then some p.2 else mapGet rest x := by
  by_cases h : p.1 = x
  · simp [mapGet, List.find?, h]
  · have hb : (p.1 == x) = false := beq_eq_false_iff_ne.mpr h
    simp [mapGet, List.find?, hb, h]

theorem mapGet_mapSet (m : List (Nat × Task)) (k : Nat) (v : Task) (x : Nat) :
    mapGet (mapSet m k v) x = if x = k then some v else mapGet m x := by
  induction m with
  | nil =>
    by_cases hx : x = k
    · subst hx
      simp [mapSet, mapGet_cons, mapGet_nil]
    · simp [mapSet, mapGet_cons, mapGet_nil, hx, Ne.symm hx]
  | cons p rest ih =>
    by_cases hpk : p.1 = k
    · by_cases hx : x = k
      · subst hx
        simp [mapSet, if_pos hpk, mapGet_cons]
      · simp only [mapSet, if_pos hpk, mapGet_cons, if_neg hx]
        rw [if_neg (show ¬ ((k, v) : Nat × Task).1 = x from fun h => hx h.symm),
          if_neg (show ¬ p.1 = x from fun h => hx (by rw [← h, hpk]))]
    · simp only [mapSet, if_neg hpk, mapGet_cons, ih]
      by_cases hpx : p.1 = x
      · rw [if_pos hpx, if_neg (show ¬ x = k from fun h => hpk (by rw [hpx, h])), if_pos hpx]
      · rw [if_neg hpx, if_neg hpx]

theorem mem_depsFinset (m : List (Nat × Task)) (k : Nat) (task : Task) (d : Nat)
    (hget : mapGet m k = some task) (hd : d ∈ task.dependents) :
    d ∈ depsFinset m := by
  induction m with
  | nil => simp [mapGet, List.find?] at hget
  | cons p rest ih =>
    rw [mapGet_cons] at hget
    rw [depsFinset, List.foldr_cons, Finset.mem_union]
    by_cases hpk : p.1 = k
    · rw [if_pos hpk, Option.some.injEq] at hget
      exact Or.inl (by rw [hget]; exact List.mem_toFinset.mpr hd)
    · rw [if_neg hpk] at hget
      exact Or.inr (ih hget)

theorem dependents_length_le_totalDeps (m : List (Nat × Task)) (k : Nat) (task : Task)
    (hget : mapGet m k = some task) :
    task.dependents.length ≤ totalDeps m := by
  induction m with
  | nil => simp [mapGet, List.find?] at hget
  | cons p rest ih =>
    rw [mapGet_cons] at hget
    rw [totalDeps, List.foldr_cons]
    by_cases hpk : p.1 = k
    · rw [if_pos hpk, Option.some.injEq] at hget
      rw [hget]
      exact Nat.le_add_right _ _
    · rw [if_neg hpk] at hget
      exact Nat.le_trans (ih hget) (Nat.le_add_left _ _)

theorem depsFinset_mapSet (m : List (Nat × Task)) (k : Nat) (task v : Task)
    (hget : mapGet m k = some task) (hdep : v.dependents = task.dependents) :
    depsFinset (mapSet m k v) = depsFinset m := by
  induction m with
  | nil => simp [mapGet, List.find?] at hget
  | cons p rest ih =>
    rw [mapGet_cons] at hget
    by_cases hpk : p.1 = k
    · rw [if_pos hpk, Option.some.injEq] at hget
      rw [mapSet, if_pos hpk]
      rw [depsFinset, depsFinset, List.foldr_cons, List.foldr_cons, hdep, hget]
    · rw [if_neg hpk] at hget
      rw [mapSet, if_neg hpk]
      rw [depsFinset, depsFinset, List.foldr_cons, List.foldr_cons]
      rw [show List.foldr (fun p acc => p.2.dependents.toFinset ∪ acc) ∅ (mapSet rest k v) =
        depsFinset (mapSet rest k v) from rfl]
      rw [show List.foldr (fun p acc => p.2.dependents.toFinset ∪ acc) ∅ rest =
        depsFinset rest from rfl]
      rw [ih hget]

theorem totalDeps_mapSet (m : List (Nat × Task)) (k : Nat) (task v : Task)
    (hget : mapGet m k = some task) (hdep : v.dependents = task.dependents) :
    totalDeps (mapSet m k v) = totalDeps m := by
  induction m with
  | nil => simp [mapGet, List.find?] at hget
  | cons p rest ih =>
    rw [mapGet_cons] at hget
    by_cases hpk : p.1 = k
    · rw [if_pos hpk, Option.some.injEq] at hget
      rw [mapSet, if_pos hpk]
      rw [totalDeps, totalDeps, List.foldr_cons, List.foldr_cons, hdep, hget]
    · rw [if_neg hpk] at hget
      rw [mapSet, if_neg hpk]
      rw [totalDeps, totalDeps, List.foldr_cons, List.foldr_cons]
      rw [show List.foldr (fun p acc => p.2.dependents.length + acc) 0 (mapSet rest k v) =
        totalDeps (mapSet rest k v) from rfl]
      rw [show List.foldr (fun p acc => p.2.dependents.length + acc) 0 rest =
        totalDeps rest from rfl]
      rw [ih hget]

end Rooftop

namespace Rooftop

theorem loop_terminates (U : Finset Nat) (D : Nat) (fuel : Nat) :
    ∀ queue visited m u,
      queue.toFinset ⊆ U → depsFinset m ⊆ U → totalDeps m ≤ D →
      (U \ visited.toFinset).card * (D + 1) + queue.length < fuel →
      (propagateLoop fuel queue visited m u).isSome := by
  induction fuel with
  | zero =>
    intro queue visited m u _ _ _ hm
    exact absurd hm (Nat.not_lt_zero _)
  | succ n ih =>
    intro queue visited m u hq hdeps hD hm
    cases queue with
    | nil => simp [propagateLoop]
    | cons k rest =>
      have hrestU : rest.toFinset ⊆ U := by
        intro y hy
        exact hq (by rw [List.toFinset_cons]; exact Finset.mem_insert_of_mem hy)
      have hkU : k ∈ U := hq (by rw [List.toFinset_cons]; exact Finset.mem_insert_self k _)
      by_cases hv : k ∈ visited
      · simp only [propagateLoop, if_pos hv]
        refine ih rest visited m u hrestU hdeps hD ?_
        simp only [List.length_cons] at hm
        omega
      · have hcard : (U \ (k :: visited).toFinset).card + 1 ≤ (U \ visited.toFinset).card := by
          have hss : U \ (k :: visited).toFinset ⊂ U \ visited.toFinset := by
            constructor
            · refine Finset.sdiff_subset_sdiff (Finset.Subset.refl U) ?_
              rw [List.toFinset_cons]
              exact Finset.subset_insert k _
            · intro hsub
              have hk1 : k ∈ U \ visited.toFinset := by
                rw [Finset.mem_sdiff]
                exact ⟨hkU, fun hc => hv (List.mem_toFinset.mp hc)⟩
              have hk2 := hsub hk1
              rw [Finset.mem_sdiff, List.toFinset_cons] at hk2
              exact hk2.2 (Finset.mem_insert_self k _)
          exact Finset.card_lt_card hss
        cases hget : mapGet m k with
        | none =>
          simp only [propagateLoop, if_neg hv, hget]
          refine ih rest (k :: visited) m u hrestU hdeps hD ?_
          simp only [List.length_cons] at hm
          have hmul := Nat.mul_le_mul_right (D + 1)
            (Nat.le_of_succ_le hcard)
          omega
        | some task =>
          rw [propagateLoop_cons_present n k rest visited m u task hv hget]
          have hlen : (rest ++ task.dependents.filter
              (fun depId => !((k :: visited).contains depId))).length ≤
              rest.length + D := by
            rw [List.length_append]
            have h1 : (task.dependents.filter
                (fun depId => !((k :: visited).contains depId))).length ≤
                task.dependents.length := List.length_filter_le _ _
            have h2 := dependents_length_le_totalDeps m k task hget
            omega
          have hqU : (rest ++ task.dependents.filter
              (fun depId => !((k :: visited).contains depId))).toFinset ⊆ U := by
            rw [List.toFinset_append]
            refine Finset.union_subset hrestU ?_
            intro y hy
            rw [List.mem_toFinset] at hy
            exact hdeps (mem_depsFinset m k task y hget (List.mem_of_mem_filter hy))
          have hmeas : (U \ (k :: visited).toFinset).card * (D + 1) +
              (rest ++ task.dependents.filter
                (fun depId => !((k :: visited).contains depId))).length < n := by
            have hmul : ((U \ (k :: visited).toFinset).card + 1) * (D + 1) ≤
                (U \ visited.toFinset).card * (D + 1) :=
              Nat.mul_le_mul_right (D + 1) hcard
            rw [Nat.succ_mul] at hmul
            simp only [List.length_cons] at hm
            omega
          by_cases hch : desiredState task m ≠ task.state
          · rw [if_pos hch]
            refine ih _ _ _ _ hqU ?_ ?_ hmeas
            · rw [depsFinset_mapSet m k task { task with state := desiredState task m } hget rfl]
              exact hdeps
            · rw [totalDeps_mapSet m k task { task with state := desiredState task m } hget rfl]
              exact hD
          · rw [if_neg hch]
            exact ih _ _ _ _ hqU hdeps hD hmeas

/-- C5: every pass terminates — the fuel computed by `propagationFuel`
is enough for the worklist to drain on every snapshot and every seed
list, cyclic blocker graphs included, because the visited set lets each
id be processed at most once. -/
theorem pass_terminates (initialIds : List Nat) (currentTasks : List Task) :
    (propagateUpdates initialIds currentTasks).isSome := by
  have h := loop_terminates (initialIds.toFinset ∪ depsFinset (mkMap currentTasks))
    (totalDeps (mkMap currentTasks))
    (propagationFuel initialIds (mkMap currentTasks))
    initialIds [] (mkMap currentTasks) []
    (Finset.subset_union_left) (Finset.subset_union_right) (Nat.le_refl _) ?_
  · simp only [propagateUpdates]
    cases hrun : propagateLoop (propagationFuel initialIds (mkMap currentTasks))
        initialIds [] (mkMap currentTasks) [] with
    | none => rw [hrun] at h; exact absurd h (by simp)
    | some r =>
      obtain ⟨r1, r2⟩ := r
      simp
  · rw [propagationFuel]
    have hc : ((initialIds.toFinset ∪ depsFinset (mkMap currentTasks)) \
        ([] : List Nat).toFinset).card =
        (initialIds.toFinset ∪ depsFinset (mkMap currentTasks)).card := by
      simp
    rw [hc]
    omega

end Rooftop

namespace Rooftop

theorem runEffects_dispatches (fails : Nat → Bool) (upd : List (Nat × TaskState)) :
    ∀ ts, runEffects fails (upd.map (fun u => SyncEff.dispatch u.1 u.2)) ts =
      (ts, upd.map (fun u => (u.1, fails u.1))) := by
  induction upd with
  | nil => intro ts; rfl
  | cons u rest ih =>
    intro ts
    simp only [List.map_cons, runEffects, ih]

/-- C8: executing the pass's effect trace against any failure oracle
installs the converged snapshot as the local task state and dispatches
each change-list write exactly once, whatever subset of writes fails:
a failed write does not abort its sibling writes, is never retried, and
does not roll the installed local converged view back. -/
theorem sync_failures_tolerated (initialIds : List Nat)
    (currentTasks localTasks ts : List Task) (upd : List (Nat × TaskState))
    (effs : List SyncEff) (fails : Nat → Bool)
    (hrun : propagateUpdates initialIds currentTasks = some (ts, upd))
    (heff : passEffects initialIds currentTasks = some effs) :
    runEffects fails effs localTasks = (ts, upd.map (fun u => (u.1, fails u.1))) := by
  unfold passEffects at heff
  rw [hrun] at heff
  simp only [Option.map_some', Option.some.injEq] at heff
  rw [← heff]
  simp only [runEffects]
  exact runEffects_dispatches fails upd ts

/-- C8 witness: in the diamond pass the sole write (for task 4) fails,
yet the local view stays the converged snapshot and the write is
dispatched exactly once, unretried. -/
theorem sync_failures_tolerated_witness :
    runEffects (fun id => id == 4)
      [SyncEff.setLocal diamondConverged, SyncEff.dispatch 4 TaskState.TODO] [] =
      (diamondConverged, [(4, true)]) :=
  sync_failures_tolerated [3] diamondTasks [] diamondConverged [(4, TaskState.TODO)]
    [SyncEff.setLocal diamondConverged, SyncEff.dispatch 4 TaskState.TODO]
    (fun id => id == 4) (by decide) (by decide)

/-- C9: a failing backend call makes every mutation operation leave the
local task list untouched and surface the error to the caller; for the
operations that also refetch the snapshot, a failure of either backend
call aborts the same way. -/
theorem mutation_failure_aborts (tasks : List Task) (id taskId : Nat) (e : String)
    (fetch : Except String (List Task)) :
    createTask tasks (Except.error e) = (tasks, some e) ∧
    updateTask tasks id (Except.error e) = (tasks, some e) ∧
    addDependency tasks taskId (Except.error e) fetch = (tasks, some e) ∧
    addDependency tasks taskId (Except.ok ()) (Except.error e) = (tasks, some e) ∧
    removeDependency tasks taskId (Except.error e) fetch = (tasks, some e) ∧
    removeDependency tasks taskId (Except.ok ()) (Except.error e) = (tasks, some e) ∧
    deleteTask tasks (Except.error e) fetch = (tasks, some e) ∧
    deleteTask tasks (Except.ok ()) (Except.error e) = (tasks, some e) :=
  ⟨rfl, rfl, rfl, rfl, rfl, rfl, rfl, rfl⟩

end Rooftop

namespace Rooftop

theorem FramePair_refl (a : Task) : FramePair a a :=
  ⟨rfl, fun h => absurd rfl h⟩

theorem FrameRel_refl (m : List (Nat × Task)) : FrameRel m m := by
  induction m with
  | nil => exact List.Forall₂.nil
  | cons p rest ih => exact List.Forall₂.cons ⟨rfl, FramePair_refl p.2⟩ ih

theorem desiredState_changed (task : Task) (m : List (Nat × Task))
    (h : desiredState task m ≠ task.state) :
    desiredState task m = TaskState.BLOCKED ∨ desiredState task m = TaskState.TODO := by
  unfold desiredState at h ⊢
  by_cases h1 : (isBlocked task m && !(task.state == TaskState.BLOCKED)) = true
  · rw [if_pos h1]
    exact Or.inl rfl
  · rw [if_neg h1] at h ⊢
    by_cases h2 : (!isBlocked task m && (task.state == TaskState.BLOCKED)) = true
    · rw [if_pos h2]
      exact Or.inr rfl
    · rw [if_neg h2] at h
      exact absurd rfl h

theorem FrameRel_mapSet (m₀ m : List (Nat × Task)) (k : Nat) (task : Task)
    (s : TaskState) (hrel : FrameRel m₀ m) (hget : mapGet m k = some task)
    (hs : s = TaskState.BLOCKED ∨ s = TaskState.TODO) :
    FrameRel m₀ (mapSet m k { task with state := s }) := by
  induction hrel with
  | nil => exact absurd hget (by rw [mapGet_nil]; exact Option.noConfusion)
  | cons hpq hrest ih =>
    rename_i p q l₀ l
    rw [mapGet_cons] at hget
    by_cases hqk : q.1 = k
    · rw [if_pos hqk] at hget
      rw [Option.some.injEq] at hget
      rw [mapSet, if_pos hqk]
      refine List.Forall₂.cons ⟨by rw [hpq.1, hqk], ?_⟩ hrest
      constructor
      · have hq2 : q.2 = { p.2 with state := q.2.state } := hpq.2.1
        rw [← hget, hq2]
      · intro _
        exact hs
    · rw [if_neg hqk] at hget
      rw [mapSet, if_neg hqk]
      exact List.Forall₂.cons hpq (ih hget)

theorem loop_frame (fuel : Nat) :
    ∀ queue visited m₀ m u mf uf,
      propagateLoop fuel queue visited m u = some (mf, uf) →
      FrameRel m₀ m →
      (∀ p ∈ u, p.2 = TaskState.BLOCKED ∨ p.2 = TaskState.TODO) →
      FrameRel m₀ mf ∧ ∀ p ∈ uf, p.2 = TaskState.BLOCKED ∨ p.2 = TaskState.TODO := by
  induction fuel with
  | zero =>
    intro queue visited m₀ m u mf uf h hrel hu
    cases queue with
    | nil =>
      simp only [propagateLoop, Option.some.injEq, Prod.mk.injEq] at h
      rw [← h.1, ← h.2]
      exact ⟨hrel, hu⟩
    | cons a l =>
      simp only [propagateLoop] at h
      exact Option.noConfusion h
  | succ n ih =>
    intro queue visited m₀ m u mf uf h hrel hu
    cases queue with
    | nil =>
      simp only [propagateLoop, Option.some.injEq, Prod.mk.injEq] at h
      rw [← h.1, ← h.2]
      exact ⟨hrel, hu⟩
    | cons k rest =>
      by_cases hv : k ∈ visited
      · simp only [propagateLoop, if_pos hv] at h
        exact ih rest visited m₀ m u mf uf h hrel hu
      · cases hget : mapGet m k with
        | none =>
          simp only [propagateLoop, if_neg hv, hget] at h
          exact ih rest (k :: visited) m₀ m u mf uf h hrel hu
        | some task =>
          rw [propagateLoop_cons_present n k rest visited m u task hv hget] at h
          by_cases hch : desiredState task m ≠ task.state
          · rw [if_pos hch] at h
            refine ih _ _ m₀ _ _ mf uf h ?_ ?_
            · exact FrameRel_mapSet m₀ m k task (desiredState task m) hrel hget
                (desiredState_changed task m hch)
            · intro p hp
              rw [List.mem_append] at hp
              cases hp with
              | inl hp => exact hu p hp
              | inr hp =>
                rw [List.mem_singleton] at hp
                rw [hp]
                exact desiredState_changed task m hch
          · rw [if_neg hch] at h
            exact ih _ _ m₀ _ _ mf uf h hrel hu

theorem mapSet_append_of_fresh (acc : List (Nat × Task)) (k : Nat) (v : Task)
    (hfresh : ∀ p ∈ acc, p.1 ≠ k) :
    mapSet acc k v = acc ++ [(k, v)] := by
  induction acc with
  | nil => rfl
  | cons p rest ih =>
    rw [mapSet, if_neg (hfresh p (List.mem_cons_self p rest))]
    rw [ih (fun q hq => hfresh q (List.mem_cons_of_mem p hq))]
    rfl

theorem foldl_mapSet_fresh (tasks : List Task) :
    ∀ acc : List (Nat × Task),
      (∀ t ∈ tasks, ∀ p ∈ acc, p.1 ≠ t.id) → (tasks.map Task.id).Nodup →
      tasks.foldl (fun m t => mapSet m t.id t) acc =
        acc ++ tasks.map (fun t => (t.id, t)) := by
  induction tasks with
  | nil => intro acc _ _; simp
  | cons t rest ih =>
    intro acc hfresh hnodup
    rw [List.foldl_cons]
    rw [mapSet_append_of_fresh acc t.id t
      (fun p hp => hfresh t (List.mem_cons_self t rest) p hp)]
    rw [List.map_cons, List.nodup_cons] at hnodup
    rw [ih (acc ++ [(t.id, t)]) ?_ hnodup.2]
    · simp
    · intro t2 ht2 p hp
      rw [List.mem_append] at hp
      cases hp with
      | inl hp => exact hfresh t2 (List.mem_cons_of_mem t ht2) p hp
      | inr hp =>
        rw [List.mem_singleton] at hp
        rw [hp]
        intro hc
        apply hnodup.1
        have hc2 : t.id = t2.id := hc
        rw [hc2]
        exact List.mem_map_of_mem Task.id ht2

theorem mkMap_eq_of_nodup (tasks : List Task) (hnodup : (tasks.map Task.id).Nodup) :
    mkMap tasks = tasks.map (fun t => (t.id, t)) := by
  rw [mkMap, foldl_mapSet_fresh tasks [] (by intro t _ p hp; exact absurd hp (List.not_mem_nil p)) hnodup]
  rfl

theorem mapValues_mkMap_of_nodup (tasks : List Task)
    (hnodup : (tasks.map Task.id).Nodup) : mapValues (mkMap tasks) = tasks := by
  rw [mkMap_eq_of_nodup tasks hnodup, mapValues, List.map_map]
  exact List.map_id tasks

theorem forall₂_framePair_of_frameRel (m₀ m : List (Nat × Task))
    (h : FrameRel m₀ m) :
    List.Forall₂ FramePair (mapValues m₀) (mapValues m) := by
  induction h with
  | nil => exact List.Forall₂.nil
  | cons hpq _ ih => exact List.Forall₂.cons hpq.2 ih

theorem map_id_eq_of_forall₂ (l l' : List Task)
    (h : List.Forall₂ FramePair l l') : l.map Task.id = l'.map Task.id := by
  induction h with
  | nil => rfl
  | @cons a b l₁ l₂ hpq htail ih =>
    rw [List.map_cons, List.map_cons, ih]
    have hid : b.id = a.id := by rw [hpq.1]
    rw [hid]

end Rooftop

namespace Rooftop

/-- C10: a pass only rewrites `state` fields.  On a duplicate-free
snapshot the converged list matches the input task for task: same id and
every field other than `state` identical; the id list is unchanged; and
every state a pass writes — locally (wherever the output state differs
from the input state) and in the change list — is BLOCKED or TODO, never
DONE, IN_PROGRESS or BACKLOG. -/
theorem pass_only_touches_state (initialIds : List Nat) (tasks ts : List Task)
    (upd : List (Nat × TaskState))
    (hnodup : (tasks.map Task.id).Nodup)
    (hrun : propagateUpdates initialIds tasks = some (ts, upd)) :
    List.Forall₂ FramePair tasks ts ∧
    tasks.map Task.id = ts.map Task.id ∧
    ∀ p ∈ upd, p.2 = TaskState.BLOCKED ∨ p.2 = TaskState.TODO := by
  simp only [propagateUpdates] at hrun
  cases hloop : propagateLoop (propagationFuel initialIds (mkMap tasks))
      initialIds [] (mkMap tasks) [] with
  | none =>
    rw [hloop] at hrun
    exact Option.noConfusion hrun
  | some r =>
    rw [hloop] at hrun
    obtain ⟨mf, uf⟩ := r
    simp only [Option.some.injEq, Prod.mk.injEq] at hrun
    have hframe := loop_frame (propagationFuel initialIds (mkMap tasks))
      initialIds [] (mkMap tasks) (mkMap tasks) [] mf uf hloop
      (FrameRel_refl (mkMap tasks)) (by intro p hp; exact absurd hp (List.not_mem_nil p))
    have hf2 := forall₂_framePair_of_frameRel (mkMap tasks) mf hframe.1
    rw [mapValues_mkMap_of_nodup tasks hnodup] at hf2
    rw [hrun.1] at hf2
    refine ⟨hf2, map_id_eq_of_forall₂ tasks ts hf2, ?_⟩
    rw [← hrun.2]
    exact hframe.2

/-- C10 witness: the diamond pass changes only task 4's state, to TODO. -/
theorem pass_only_touches_state_witness :
    List.Forall₂ FramePair diamondTasks diamondConverged ∧
    diamondTasks.map Task.id = diamondConverged.map Task.id ∧
    ∀ p ∈ [(4, TaskState.TODO)], p.2 = TaskState.BLOCKED ∨ p.2 = TaskState.TODO :=
  pass_only_touches_state [3] diamondTasks diamondConverged [(4, TaskState.TODO)]
    (by decide) (by decide)

end Rooftop

namespace Rooftop

theorem anyBlocked_congr (bs : List Nat) (m1 m2 : List (Nat × Task))
    (h : ∀ b ∈ bs, mapGet m1 b = mapGet m2 b) :
    (bs.any fun b => match mapGet m1 b with
      | none => false
      | some blocker => blocker.state != TaskState.DONE) =
    (bs.any fun b => match mapGet m2 b with
      | none => false
      | some blocker => blocker.state != TaskState.DONE) := by
  induction bs with
  | nil => rfl
  | cons b rest ih =>
    rw [List.any_cons, List.any_cons, h b (List.mem_cons_self b rest),
      ih (fun x hx => h x (List.mem_cons_of_mem b hx))]

theorem specBlocked_congr (task : Task) (m1 m2 : List (Nat × Task))
    (h : ∀ b ∈ task.blockers, mapGet m1 b = mapGet m2 b) :
    specBlocked task m1 = specBlocked task m2 :=
  anyBlocked_congr task.blockers m1 m2 h

theorem specBlocked_state_irrel (task : Task) (s : TaskState) (m : List (Nat × Task)) :
    specBlocked { task with state := s } m = specBlocked task m := rfl

theorem frameRel_mapGet (m₀ m : List (Nat × Task)) (h : FrameRel m₀ m) (k : Nat) :
    (mapGet m₀ k = none ∧ mapGet m k = none) ∨
    ∃ a b, mapGet m₀ k = some a ∧ mapGet m k = some b ∧
      b = { a with state := b.state } := by
  induction h with
  | nil => exact Or.inl ⟨mapGet_nil k, mapGet_nil k⟩
  | @cons p q l₀ l hpq htail ih =>
    rw [mapGet_cons, mapGet_cons]
    by_cases hpk : p.1 = k
    · rw [if_pos hpk, if_pos (by rw [← hpq.1, hpk])]
      exact Or.inr ⟨p.2, q.2, rfl, rfl, hpq.2.1⟩
    · rw [if_neg hpk, if_neg (by rw [← hpq.1]; exact hpk)]
      exact ih

theorem topoSortedB_suffix (m : List (Nat × Task)) (xs ys : List Nat)
    (h : topoSortedB m (xs ++ ys) = true) : topoSortedB m ys = true := by
  induction xs with
  | nil => exact h
  | cons a xs ih =>
    rw [List.cons_append, topoSortedB, Bool.and_eq_true] at h
    exact ih h.2

theorem topoSortedB_head (m : List (Nat × Task)) (a : Nat) (rest : List Nat)
    (h : topoSortedB m (a :: rest) = true) (t : Task) (hget : mapGet m a = some t)
    (b : Nat) (hb : b ∈ t.blockers) (hpres : (mapGet m b).isSome = true) :
    ¬ b ∈ a :: rest := by
  rw [topoSortedB, Bool.and_eq_true] at h
  have h1 := h.1
  rw [hget] at h1
  have h2 := List.all_eq_true.mp h1 b hb
  rw [hpres] at h2
  simp only [Bool.not_true, Bool.false_or] at h2
  intro hmem
  simp at h2
  rw [List.mem_cons] at hmem
  cases hmem with
  | inl hmem => exact h2.1 hmem
  | inr hmem => exact h2.2 hmem

theorem foldl_mapSet_get (tasks : List Task) :
    ∀ acc k t, mapGet (tasks.foldl (fun m x => mapSet m x.id x) acc) k = some t →
      mapGet acc k = some t ∨ (t ∈ tasks ∧ t.id = k) := by
  induction tasks with
  | nil => intro acc k t h; exact Or.inl h
  | cons x rest ih =>
    intro acc k t h
    rw [List.foldl_cons] at h
    cases ih (mapSet acc x.id x) k t h with
    | inl h2 =>
      rw [mapGet_mapSet] at h2
      by_cases hk : k = x.id
      · rw [if_pos hk, Option.some.injEq] at h2
        exact Or.inr ⟨by rw [← h2]; exact List.mem_cons_self x rest, by rw [← h2, hk]⟩
      · rw [if_neg hk] at h2
        exact Or.inl h2
    | inr h2 => exact Or.inr ⟨List.mem_cons_of_mem _ h2.1, h2.2⟩

theorem mapGet_mkMap_mem (tasks : List Task) (k : Nat) (t : Task)
    (h : mapGet (mkMap tasks) k = some t) : t ∈ tasks ∧ t.id = k := by
  rw [mkMap] at h
  cases foldl_mapSet_get tasks [] k t h with
  | inl h2 => exact absurd h2 (by rw [mapGet_nil]; exact Option.noConfusion)
  | inr h2 => exact h2

end Rooftop

namespace Rooftop

theorem frameRel_isSome (m₀ m : List (Nat × Task)) (h : FrameRel m₀ m) (k : Nat) :
    (mapGet m k).isSome = (mapGet m₀ k).isSome := by
  cases frameRel_mapGet m₀ m h k with
  | inl hc => rw [hc.1, hc.2]
  | inr hc =>
    obtain ⟨a, b, ha, hb, _⟩ := hc
    rw [ha, hb]
    rfl

theorem desiredState_char (task : Task) (m : List (Nat × Task)) :
    desiredState task m =
      if isBlocked task m = true then TaskState.BLOCKED
      else if task.state = TaskState.BLOCKED then TaskState.TODO else task.state := by
  unfold desiredState
  cases hb : isBlocked task m <;> by_cases hs : task.state = TaskState.BLOCKED <;>
    simp [hb, hs]

theorem topo_loop_invariant (m₀ : List (Nat × Task)) (seed : List Nat)
    (htopo : topoSortedB m₀ seed = true)
    (hcomplete : ∀ k, (mapGet m₀ k).isSome = true → k ∈ seed) :
    ∀ fuel done s extra visited m u mf uf,
      seed = done ++ s →
      (∀ e ∈ extra, e ∈ visited ∨ mapGet m e = none ∨ e ∈ s) →
      (∀ k, (mapGet m k).isSome = true → (k ∈ visited ↔ k ∈ done)) →
      FrameRel m₀ m →
      (∀ k, ¬ k ∈ visited →
        Option.map Task.state (mapGet m k) = Option.map Task.state (mapGet m₀ k)) →
      (∀ d ∈ done, ∀ t, mapGet m d = some t → ∃ t₀, mapGet m₀ d = some t₀ ∧
        t.state = (if specBlocked t m = true then TaskState.BLOCKED
          else if t₀.state = TaskState.BLOCKED then TaskState.TODO else t₀.state)) →
      propagateLoop fuel (s ++ extra) visited m u = some (mf, uf) →
      ∀ k t, mapGet mf k = some t → ∃ t₀, mapGet m₀ k = some t₀ ∧
        t.state = (if specBlocked t mf = true then TaskState.BLOCKED
          else if t₀.state = TaskState.BLOCKED then TaskState.TODO else t₀.state) := by
  intro fuel
  induction fuel with
  | zero =>
    intro done s extra visited m u mf uf hseed hextra hvisdone hframe hunvis hinv h
    cases hq : s ++ extra with
    | cons a l =>
      rw [hq] at h
      simp only [propagateLoop] at h
      exact Option.noConfusion h
    | nil =>
      rw [hq] at h
      simp only [propagateLoop, Option.some.injEq, Prod.mk.injEq] at h
      obtain ⟨hs0, _⟩ := List.append_eq_nil.mp hq
      intro k t hget
      rw [← h.1] at hget
      have hpres₀ : (mapGet m₀ k).isSome = true := by
        rw [← frameRel_isSome m₀ m hframe k, hget]
        rfl
      have hkdone : k ∈ done := by
        have := hcomplete k hpres₀
        rw [hseed, hs0, List.append_nil] at this
        exact this
      obtain ⟨t₀, h₀, hstate⟩ := hinv k hkdone t hget
      refine ⟨t₀, h₀, ?_⟩
      rw [← h.1]
      exact hstate
  | succ n ih =>
    intro done s extra visited m u mf uf hseed hextra hvisdone hframe hunvis hinv h
    cases s with
    | nil =>
      cases extra with
      | nil =>
        simp only [List.nil_append, propagateLoop, Option.some.injEq, Prod.mk.injEq] at h
        intro k t hget
        rw [← h.1] at hget
        have hpres₀ : (mapGet m₀ k).isSome = true := by
          rw [← frameRel_isSome m₀ m hframe k, hget]
          rfl
        have hkdone : k ∈ done := by
          have := hcomplete k hpres₀
          rw [hseed, List.append_nil] at this
          exact this
        obtain ⟨t₀, h₀, hstate⟩ := hinv k hkdone t hget
        refine ⟨t₀, h₀, ?_⟩
        rw [← h.1]
        exact hstate
      | cons e extra' =>
        simp only [List.nil_append] at h
        by_cases hv : e ∈ visited
        · simp only [propagateLoop, if_pos hv] at h
          refine ih done [] extra' visited m u mf uf hseed ?_ hvisdone hframe hunvis hinv
            (by simpa using h)
          intro x hx
          exact hextra x (List.mem_cons_of_mem e hx)
        · have hnone : mapGet m e = none := by
            cases hextra e (List.mem_cons_self e extra') with
            | inl hc => exact absurd hc hv
            | inr hc =>
              cases hc with
              | inl hc => exact hc
              | inr hc => exact absurd hc (List.not_mem_nil e)
          simp only [propagateLoop, if_neg hv, hnone] at h
          refine ih done [] extra' (e :: visited) m u mf uf hseed ?_ ?_ hframe ?_ hinv
            (by simpa using h)
          · intro x hx
            cases hextra x (List.mem_cons_of_mem e hx) with
            | inl hc => exact Or.inl (List.mem_cons_of_mem e hc)
            | inr hc => exact Or.inr hc
          · intro k hk
            have hne : k ≠ e := by
              intro hh
              rw [hh, hnone] at hk
              exact Bool.noConfusion hk
            rw [List.mem_cons]
            constructor
            · intro hc
              cases hc with
              | inl hc => exact absurd hc hne
              | inr hc => exact (hvisdone k hk).mp hc
            · intro hc
              exact Or.inr ((hvisdone k hk).mpr hc)
          · intro k hk
            exact hunvis k (fun hc => hk (List.mem_cons_of_mem e hc))
    | cons k s' =>
      rw [List.cons_append] at h
      have hseed' : seed = (done ++ [k]) ++ s' := by
        rw [hseed, List.append_assoc, List.singleton_append]
      by_cases hv : k ∈ visited
      · simp only [propagateLoop, if_pos hv] at h
        refine ih (done ++ [k]) s' extra visited m u mf uf hseed' ?_ ?_ hframe hunvis ?_ h
        · intro e he
          cases hextra e he with
          | inl hc => exact Or.inl hc
          | inr hc =>
            cases hc with
            | inl hc => exact Or.inr (Or.inl hc)
            | inr hc =>
              rw [List.mem_cons] at hc
              cases hc with
              | inl hc => exact Or.inl (by rw [hc]; exact hv)
              | inr hc => exact Or.inr (Or.inr hc)
        · intro k' hk'
          rw [hvisdone k' hk', List.mem_append, List.mem_singleton]
          constructor
          · intro hc
            exact Or.inl hc
          · intro hc
            cases hc with
            | inl hc => exact hc
            | inr hc =>
              rw [hc]
              exact (hvisdone k (by rw [← hc]; exact hk')).mp hv
        · intro d hd t hgett
          rw [List.mem_append, List.mem_singleton] at hd
          cases hd with
          | inl hd => exact hinv d hd t hgett
          | inr hd =>
            refine hinv d ?_ t hgett
            rw [hd]
            rw [hd] at hgett
            exact (hvisdone k (by rw [hgett]; rfl)).mp hv
      · cases hget : mapGet m k with
        | none =>
          simp only [propagateLoop, if_neg hv, hget] at h
          refine ih (done ++ [k]) s' extra (k :: visited) m u mf uf hseed' ?_ ?_ hframe ?_ ?_ h
          · intro e he
            cases hextra e he with
            | inl hc => exact Or.inl (List.mem_cons_of_mem k hc)
            | inr hc =>
              cases hc with
              | inl hc => exact Or.inr (Or.inl hc)
              | inr hc =>
                rw [List.mem_cons] at hc
                cases hc with
                | inl hc => exact Or.inr (Or.inl (by rw [hc]; exact hget))
                | inr hc => exact Or.inr (Or.inr hc)
          · intro k' hk'
            have hne : k' ≠ k := by
              intro hh
              rw [hh, hget] at hk'
              exact Bool.noConfusion hk'
            rw [List.mem_cons, List.mem_append, List.mem_singleton]
            constructor
            · intro hc
              cases hc with
              | inl hc => exact absurd hc hne
              | inr hc => exact Or.inl ((hvisdone k' hk').mp hc)
            · intro hc
              cases hc with
              | inl hc => exact Or.inr ((hvisdone k' hk').mpr hc)
              | inr hc => exact absurd hc hne
          · intro k' hk'
            exact hunvis k' (fun hc => hk' (List.mem_cons_of_mem k hc))
          · intro d hd t hgett
            rw [List.mem_append, List.mem_singleton] at hd
            cases hd with
            | inl hd => exact hinv d hd t hgett
            | inr hd =>
              rw [hd] at hgett
              rw [hget] at hgett
              exact Option.noConfusion hgett
        | some task =>
          rw [propagateLoop_cons_present n k (s' ++ extra) visited m u task hv hget] at h
          have hkey₀ : ∃ t₀k, mapGet m₀ k = some t₀k ∧
              task = { t₀k with state := task.state } := by
            cases frameRel_mapGet m₀ m hframe k with
            | inl hc => rw [hget] at hc; exact Option.noConfusion hc.2
            | inr hc =>
              obtain ⟨a, b, ha, hb, heq⟩ := hc
              rw [hget, Option.some.injEq] at hb
              exact ⟨a, ha, by rw [← hb] at heq; exact heq⟩
          obtain ⟨t₀k, hget₀, hshape⟩ := hkey₀
          have hkndone : ¬ k ∈ done := by
            intro hc
            exact hv ((hvisdone k (by rw [hget]; rfl)).mpr hc)
          have hpres₀k : (mapGet m₀ k).isSome = true := by rw [hget₀]; rfl
          have htk : topoSortedB m₀ (k :: s') = true := by
            refine topoSortedB_suffix m₀ done (k :: s') ?_
            rw [← hseed]
            exact htopo
          have hkblockers : task.blockers = t₀k.blockers := by rw [hshape]
          have hknotself : ¬ k ∈ task.blockers := by
            intro hc
            exact topoSortedB_head m₀ k s' htk t₀k hget₀ k
              (by rw [← hkblockers]; exact hc) hpres₀k (List.mem_cons_self k s')
          have hstate₀ : task.state = t₀k.state := by
            have h2 := hunvis k hv
            rw [hget, hget₀] at h2
            simpa using h2
          -- the topological argument that a done task never has k among its blockers
          have hdone_nok : ∀ d ∈ done, ∀ t₀d, mapGet m₀ d = some t₀d →
              ¬ k ∈ t₀d.blockers := by
            intro d hd t₀d hget₀d hc
            obtain ⟨xs, zs, hdz⟩ := List.append_of_mem hd
            have hsplit : seed = xs ++ (d :: (zs ++ (k :: s'))) := by
              rw [hseed, hdz, List.append_assoc, List.cons_append]
            have htd : topoSortedB m₀ (d :: (zs ++ (k :: s'))) = true := by
              refine topoSortedB_suffix m₀ xs _ ?_
              rw [← hsplit]
              exact htopo
            refine topoSortedB_head m₀ d (zs ++ (k :: s')) htd t₀d hget₀d k hc hpres₀k ?_
            exact List.mem_cons_of_mem d
              (List.mem_append_right zs (List.mem_cons_self k s'))
          -- membership facts about the enqueued dependents
          have hextra' : ∀ m2 : List (Nat × Task),
              (∀ x, mapGet m2 x = if x = k
                then some { task with state := desiredState task m } else mapGet m x) →
              ∀ e ∈ extra ++ task.dependents.filter
                  (fun depId => !((k :: visited).contains depId)),
                e ∈ k :: visited ∨ mapGet m2 e = none ∨ e ∈ s' := by
            intro m2 hm2 e he
            rw [List.mem_append] at he
            cases he with
            | inl he =>
              cases hextra e he with
              | inl hc => exact Or.inl (List.mem_cons_of_mem k hc)
              | inr hc =>
                cases hc with
                | inl hc =>
                  by_cases hek : e = k
                  · rw [hek, hget] at hc
                    exact Option.noConfusion hc
                  · refine Or.inr (Or.inl ?_)
                    rw [hm2 e, if_neg hek]
                    exact hc
                | inr hc =>
                  rw [List.mem_cons] at hc
                  cases hc with
                  | inl hc => exact Or.inl (by rw [hc]; exact List.mem_cons_self k visited)
                  | inr hc => exact Or.inr (Or.inr hc)
            | inr he =>
              have henv : ¬ e ∈ (k :: visited) := by
                have := List.of_mem_filter he
                simpa using this
              by_cases hpe : (mapGet m e).isSome = true
              · have hek : e ≠ k := fun hh => henv (by rw [hh]; exact List.mem_cons_self k visited)
                have hev : ¬ e ∈ visited := fun hh => henv (List.mem_cons_of_mem k hh)
                have hedone : ¬ e ∈ done := fun hh => hev ((hvisdone e hpe).mpr hh)
                have hpe₀ : (mapGet m₀ e).isSome = true := by
                  rw [← frameRel_isSome m₀ m hframe e]
                  exact hpe
                have hes : e ∈ seed := hcomplete e hpe₀
                rw [hseed, List.mem_append, List.mem_cons] at hes
                cases hes with
                | inl hc => exact absurd hc hedone
                | inr hc =>
                  cases hc with
                  | inl hc => exact absurd hc hek
                  | inr hc => exact Or.inr (Or.inr hc)
              · refine Or.inr (Or.inl ?_)
                have hek : e ≠ k := fun hh => henv (by rw [hh]; exact List.mem_cons_self k visited)
                rw [hm2 e, if_neg hek]
                cases hme : mapGet m e with
                | none => rfl
                | some w => rw [hme] at hpe; exact absurd rfl hpe
          -- visited/done correspondence after visiting k
          have hvisdone' : ∀ m2 : List (Nat × Task),
              (∀ x, (mapGet m2 x).isSome = (mapGet m x).isSome) →
              ∀ k', (mapGet m2 k').isSome = true →
                (k' ∈ k :: visited ↔ k' ∈ done ++ [k]) := by
            intro m2 hm2 k' hk'
            rw [hm2 k'] at hk'
            rw [List.mem_cons, List.mem_append, List.mem_singleton]
            constructor
            · intro hc
              cases hc with
              | inl hc => exact Or.inr hc
              | inr hc => exact Or.inl ((hvisdone k' hk').mp hc)
            · intro hc
              cases hc with
              | inl hc => exact Or.inr ((hvisdone k' hk').mpr hc)
              | inr hc => exact Or.inl hc
          by_cases hch : desiredState task m ≠ task.state
          · rw [if_pos hch] at h
            rw [List.append_assoc] at h
            have hm2get : ∀ x, mapGet (mapSet m k { task with state := desiredState task m }) x =
                if x = k then some { task with state := desiredState task m } else mapGet m x :=
              fun x => mapGet_mapSet m k _ x
            refine ih (done ++ [k]) s' (extra ++ task.dependents.filter
              (fun depId => !((k :: visited).contains depId))) (k :: visited)
              (mapSet m k { task with state := desiredState task m })
              (u ++ [(k, desiredState task m)]) mf uf hseed'
              (hextra' _ hm2get) ?_ ?_ ?_ ?_ h
            · refine hvisdone' _ ?_
              intro x
              rw [hm2get x]
              by_cases hx : x = k
              · rw [if_pos hx, hx, hget]
                rfl
              · rw [if_neg hx]
            · exact FrameRel_mapSet m₀ m k task (desiredState task m) hframe hget
                (desiredState_changed task m hch)
            · intro k' hk'
              have hk'k : k' ≠ k := fun hh => hk' (by rw [hh]; exact List.mem_cons_self k visited)
              have hk'v : ¬ k' ∈ visited := fun hh => hk' (List.mem_cons_of_mem k hh)
              rw [hm2get k', if_neg hk'k]
              exact hunvis k' hk'v
            · intro d hd t hgett
              rw [List.mem_append, List.mem_singleton] at hd
              cases hd with
              | inl hd =>
                have hdk : d ≠ k := fun hh => hkndone (by rw [← hh]; exact hd)
                rw [hm2get d, if_neg hdk] at hgett
                obtain ⟨t₀, h₀, hstate⟩ := hinv d hd t hgett
                refine ⟨t₀, h₀, ?_⟩
                have hnok : ¬ k ∈ t.blockers := by
                  have hblk : t.blockers = t₀.blockers := by
                    cases frameRel_mapGet m₀ m hframe d with
                    | inl hc => rw [hgett] at hc; exact Option.noConfusion hc.2
                    | inr hc =>
                      obtain ⟨a, b, ha, hb, heq⟩ := hc
                      rw [h₀, Option.some.injEq] at ha
                      rw [hgett, Option.some.injEq] at hb
                      rw [← ha, ← hb] at heq
                      rw [heq]
                  rw [hblk]
                  exact hdone_nok d hd t₀ h₀
                have hcongr : specBlocked t (mapSet m k { task with state := desiredState task m }) =
                    specBlocked t m := by
                  refine specBlocked_congr t _ m ?_
                  intro b hb
                  have hbk : b ≠ k := fun hh => hnok (by rw [← hh]; exact hb)
                  rw [hm2get b, if_neg hbk]
                rw [hcongr]
                exact hstate
              | inr hd =>
                rw [hd] at hgett ⊢
                rw [hm2get k, if_pos rfl, Option.some.injEq] at hgett
                refine ⟨t₀k, hget₀, ?_⟩
                have hblockeq : specBlocked t (mapSet m k { task with state := desiredState task m }) =
                    specBlocked task m := by
                  rw [← hgett]
                  rw [show specBlocked { task with state := desiredState task m }
                    (mapSet m k { task with state := desiredState task m }) =
                    specBlocked task (mapSet m k { task with state := desiredState task m }) from rfl]
                  refine specBlocked_congr task _ m ?_
                  intro b hb
                  have hbk : b ≠ k := fun hh => hknotself (by rw [← hh]; exact hb)
                  rw [hm2get b, if_neg hbk]
                rw [hblockeq]
                have hts : t.state = desiredState task m := by rw [← hgett]
                rw [hts, desiredState_char, isBlocked_eq_specBlocked, ← hstate₀]
          · rw [if_neg hch] at h
            rw [List.append_assoc] at h
            have hmid : ∀ x, mapGet m x = if x = k
                then some { task with state := desiredState task m } else mapGet m x := by
              intro x
              by_cases hx : x = k
              · rw [if_pos hx, hx, hget]
                have : desiredState task m = task.state := by
                  by_contra hc
                  exact hch hc
                rw [this]
              · rw [if_neg hx]
            refine ih (done ++ [k]) s' (extra ++ task.dependents.filter
              (fun depId => !((k :: visited).contains depId))) (k :: visited)
              m u mf uf hseed' (hextra' m hmid) (hvisdone' m (fun x => rfl)) hframe ?_ ?_ h
            · intro k' hk'
              exact hunvis k' (fun hc => hk' (List.mem_cons_of_mem k hc))
            · intro d hd t hgett
              rw [List.mem_append, List.mem_singleton] at hd
              cases hd with
              | inl hd => exact hinv d hd t hgett
              | inr hd =>
                rw [hd] at hgett ⊢
                rw [hget, Option.some.injEq] at hgett
                refine ⟨t₀k, hget₀, ?_⟩
                have hdes : desiredState task m = task.state := by
                  by_contra hc
                  exact hch hc
                rw [← hgett]
                rw [show specBlocked task m = isBlocked task m from
                  (isBlocked_eq_specBlocked task m).symm]
                rw [← hstate₀]
                conv_lhs => rw [← hdes]
                rw [desiredState_char]

end Rooftop

namespace Rooftop

theorem keyId_mapSet (m : List (Nat × Task)) (k : Nat) (v : Task)
    (hid : ∀ p ∈ m, p.2.id = p.1) (hv : v.id = k) :
    ∀ p ∈ mapSet m k v, p.2.id = p.1 := by
  induction m with
  | nil =>
    intro p hp
    rw [mapSet] at hp
    rw [List.mem_singleton] at hp
    rw [hp]
    exact hv
  | cons q rest ih =>
    intro p hp
    rw [mapSet] at hp
    by_cases hqk : q.1 = k
    · rw [if_pos hqk, List.mem_cons] at hp
      cases hp with
      | inl hp => rw [hp]; exact hv
      | inr hp => exact hid p (List.mem_cons_of_mem q hp)
    · rw [if_neg hqk, List.mem_cons] at hp
      cases hp with
      | inl hp => rw [hp]; exact hid q (List.mem_cons_self q rest)
      | inr hp =>
        exact ih (fun x hx => hid x (List.mem_cons_of_mem q hx)) p hp

theorem keyId_mkMap (tasks : List Task) : ∀ p ∈ mkMap tasks, p.2.id = p.1 := by
  rw [mkMap]
  have hgen : ∀ ts : List Task, ∀ acc : List (Nat × Task),
      (∀ p ∈ acc, p.2.id = p.1) →
      ∀ p ∈ ts.foldl (fun m t => mapSet m t.id t) acc, p.2.id = p.1 := by
    intro ts
    induction ts with
    | nil => intro acc hacc p hp; exact hacc p hp
    | cons t rest ih =>
      intro acc hacc p hp
      rw [List.foldl_cons] at hp
      exact ih (mapSet acc t.id t) (keyId_mapSet acc t.id t hacc rfl) p hp
  exact hgen tasks [] (fun p hp => absurd hp (List.not_mem_nil p))

theorem mem_keys_mapSet (m : List (Nat × Task)) (k : Nat) (v : Task) (x : Nat)
    (hx : x ∈ (mapSet m k v).map Prod.fst) : x ∈ m.map Prod.fst ∨ x = k := by
  induction m with
  | nil =>
    rw [mapSet] at hx
    simp at hx
    exact Or.inr hx
  | cons q rest ih =>
    rw [mapSet] at hx
    by_cases hqk : q.1 = k
    · rw [if_pos hqk] at hx
      rw [List.map_cons, List.mem_cons] at hx
      cases hx with
      | inl hx => exact Or.inr hx
      | inr hx => exact Or.inl (by rw [List.map_cons]; exact List.mem_cons_of_mem q.1 hx)
    · rw [if_neg hqk] at hx
      rw [List.map_cons, List.mem_cons] at hx
      cases hx with
      | inl hx => exact Or.inl (by rw [List.map_cons, hx]; exact List.mem_cons_self q.1 _)
      | inr hx =>
        cases ih hx with
        | inl hc => exact Or.inl (by rw [List.map_cons]; exact List.mem_cons_of_mem q.1 hc)
        | inr hc => exact Or.inr hc

theorem keysNodup_mapSet (m : List (Nat × Task)) (k : Nat) (v : Task)
    (hnd : (m.map Prod.fst).Nodup) : ((mapSet m k v).map Prod.fst).Nodup := by
  induction m with
  | nil => simp [mapSet]
  | cons q rest ih =>
    rw [List.map_cons, List.nodup_cons] at hnd
    rw [mapSet]
    by_cases hqk : q.1 = k
    · rw [if_pos hqk, List.map_cons, List.nodup_cons]
      exact ⟨by rw [← hqk]; exact hnd.1, hnd.2⟩
    · rw [if_neg hqk, List.map_cons, List.nodup_cons]
      refine ⟨?_, ih hnd.2⟩
      intro hc
      cases mem_keys_mapSet rest k v q.1 hc with
      | inl hc2 => exact hnd.1 hc2
      | inr hc2 => exact hqk hc2

theorem keysNodup_mkMap (tasks : List Task) : ((mkMap tasks).map Prod.fst).Nodup := by
  rw [mkMap]
  have hgen : ∀ ts : List Task, ∀ acc : List (Nat × Task),
      (acc.map Prod.fst).Nodup →
      ((ts.foldl (fun m t => mapSet m t.id t) acc).map Prod.fst).Nodup := by
    intro ts
    induction ts with
    | nil => intro acc hacc; exact hacc
    | cons t rest ih =>
      intro acc hacc
      rw [List.foldl_cons]
      exact ih (mapSet acc t.id t) (keysNodup_mapSet acc t.id t hacc)
  exact hgen tasks [] (by simp)

theorem keys_eq_of_frameRel (m₀ m : List (Nat × Task)) (h : FrameRel m₀ m) :
    m₀.map Prod.fst = m.map Prod.fst := by
  induction h with
  | nil => rfl
  | @cons p q l₀ l hpq htail ih =>
    rw [List.map_cons, List.map_cons, ih, hpq.1]

theorem keyId_of_frameRel (m₀ m : List (Nat × Task)) (h : FrameRel m₀ m)
    (hid : ∀ p ∈ m₀, p.2.id = p.1) : ∀ p ∈ m, p.2.id = p.1 := by
  induction h with
  | nil => intro p hp; exact absurd hp (List.not_mem_nil p)
  | @cons p q l₀ l hpq htail ih =>
    intro x hx
    rw [List.mem_cons] at hx
    cases hx with
    | inl hx =>
      rw [hx, ← hpq.1]
      have hq2 : q.2.id = p.2.id := by rw [hpq.2.1]
      rw [hq2]
      exact hid p (List.mem_cons_self p l₀)
    | inr hx => exact ih (fun y hy => hid y (List.mem_cons_of_mem p hy)) x hx

theorem values_mapGet (m : List (Nat × Task)) (hid : ∀ p ∈ m, p.2.id = p.1)
    (hnd : (m.map Prod.fst).Nodup) :
    ∀ t ∈ mapValues m, mapGet m t.id = some t := by
  induction m with
  | nil => intro t ht; exact absurd ht (List.not_mem_nil t)
  | cons p rest ih =>
    intro t ht
    rw [mapValues, List.map_cons, List.mem_cons] at ht
    rw [List.map_cons, List.nodup_cons] at hnd
    cases ht with
    | inl ht =>
      rw [mapGet_cons, ht, if_pos (hid p (List.mem_cons_self p rest)).symm]
    | inr ht =>
      rw [mapGet_cons]
      have htid : t.id ∈ rest.map Prod.fst := by
        obtain ⟨q, hq, hqt⟩ := List.mem_map.mp ht
        rw [← hqt, hid q (List.mem_cons_of_mem p hq)]
        exact List.mem_map_of_mem Prod.fst hq
      rw [if_neg (fun hc => hnd.1 (by rw [hc]; exact htid))]
      exact ih (fun q hq => hid q (List.mem_cons_of_mem p hq)) hnd.2 t ht

theorem values_ids_eq_keys (m : List (Nat × Task)) (hid : ∀ p ∈ m, p.2.id = p.1) :
    (mapValues m).map Task.id = m.map Prod.fst := by
  induction m with
  | nil => rfl
  | cons p rest ih =>
    rw [mapValues, List.map_cons, List.map_cons, List.map_cons,
      hid p (List.mem_cons_self p rest)]
    have := ih (fun q hq => hid q (List.mem_cons_of_mem p hq))
    rw [mapValues] at this
    rw [this]

theorem mkMap_values_eq (m : List (Nat × Task)) (hid : ∀ p ∈ m, p.2.id = p.1)
    (hnd : (m.map Prod.fst).Nodup) : mkMap (mapValues m) = m := by
  have hvnd : ((mapValues m).map Task.id).Nodup := by
    rw [values_ids_eq_keys m hid]
    exact hnd
  rw [mkMap_eq_of_nodup (mapValues m) hvnd]
  rw [mapValues, List.map_map]
  have : ∀ p ∈ m, ((fun t => (t.id, t)) ∘ Prod.snd) p = p := by
    intro p hp
    simp only [Function.comp_apply]
    rw [hid p hp]
  calc m.map ((fun t => (t.id, t)) ∘ Prod.snd) = m.map id := List.map_congr_left this
    _ = m := List.map_id m

end Rooftop

namespace Rooftop

theorem topo_pass_spec (tasks : List Task) (seed : List Nat) (ts : List Task)
    (upd : List (Nat × TaskState))
    (htopo : topoSortedB (mkMap tasks) seed = true)
    (hcomplete : ∀ t ∈ tasks, t.id ∈ seed)
    (hrun : propagateUpdates seed tasks = some (ts, upd)) :
    (∀ t' ∈ ts, ∃ t₀, mapGet (mkMap tasks) t'.id = some t₀ ∧
      t'.state = (if specBlocked t' (mkMap ts) = true then TaskState.BLOCKED
        else if t₀.state = TaskState.BLOCKED then TaskState.TODO else t₀.state)) ∧
    (∀ k t, mapGet (mkMap ts) k = some t → desiredState t (mkMap ts) = t.state) ∧
    mapValues (mkMap ts) = ts := by
  simp only [propagateUpdates] at hrun
  cases hloop : propagateLoop (propagationFuel seed (mkMap tasks)) seed [] (mkMap tasks) [] with
  | none =>
    rw [hloop] at hrun
    exact Option.noConfusion hrun
  | some r =>
    rw [hloop] at hrun
    obtain ⟨mf, uf⟩ := r
    simp only [Option.some.injEq, Prod.mk.injEq] at hrun
    have hframe : FrameRel (mkMap tasks) mf :=
      (loop_frame (propagationFuel seed (mkMap tasks)) seed [] (mkMap tasks)
        (mkMap tasks) [] mf uf hloop (FrameRel_refl (mkMap tasks))
        (by intro p hp; exact absurd hp (List.not_mem_nil p))).1
    have hcomp' : ∀ k, (mapGet (mkMap tasks) k).isSome = true → k ∈ seed := by
      intro k hk
      cases hmk : mapGet (mkMap tasks) k with
      | none => rw [hmk] at hk; exact Bool.noConfusion hk
      | some t =>
        obtain ⟨ht, hid⟩ := mapGet_mkMap_mem tasks k t hmk
        rw [← hid]
        exact hcomplete t ht
    have hP := topo_loop_invariant (mkMap tasks) seed htopo hcomp'
      (propagationFuel seed (mkMap tasks)) [] seed [] [] (mkMap tasks) [] mf uf
      rfl
      (by intro e he; exact absurd he (List.not_mem_nil e))
      (by
        intro k _
        constructor
        · intro hc; exact absurd hc (List.not_mem_nil k)
        · intro hc; exact absurd hc (List.not_mem_nil k))
      (FrameRel_refl (mkMap tasks))
      (fun k _ => rfl)
      (by intro d hd; exact absurd hd (List.not_mem_nil d))
      (by rw [List.append_nil]; exact hloop)
    have hid_mf : ∀ p ∈ mf, p.2.id = p.1 :=
      keyId_of_frameRel (mkMap tasks) mf hframe (keyId_mkMap tasks)
    have hnd_mf : (mf.map Prod.fst).Nodup := by
      rw [← keys_eq_of_frameRel (mkMap tasks) mf hframe]
      exact keysNodup_mkMap tasks
    have hmk_ts : mkMap ts = mf := by
      rw [← hrun.1]
      exact mkMap_values_eq mf hid_mf hnd_mf
    refine ⟨?_, ?_, ?_⟩
    · intro t' ht'
      have hget' : mapGet mf t'.id = some t' := by
        refine values_mapGet mf hid_mf hnd_mf t' ?_
        rw [hrun.1]
        exact ht'
      obtain ⟨t₀, h₀, hstate⟩ := hP t'.id t' hget'
      refine ⟨t₀, h₀, ?_⟩
      rw [hmk_ts]
      exact hstate
    · intro k t hget
      rw [hmk_ts] at hget ⊢
      obtain ⟨t₀, h₀, hstate⟩ := hP k t hget
      rw [desiredState_char, isBlocked_eq_specBlocked]
      by_cases hbl : specBlocked t mf = true
      · rw [if_pos hbl]
        rw [if_pos hbl] at hstate
        exact hstate.symm
      · rw [if_neg hbl]
        rw [if_neg hbl] at hstate
        have hne : ¬ t.state = TaskState.BLOCKED := by
          by_cases h₀b : t₀.state = TaskState.BLOCKED
          · rw [if_pos h₀b] at hstate
            rw [hstate]
            exact fun hc => TaskState.noConfusion hc
          · rw [if_neg h₀b] at hstate
            rw [hstate]
            exact h₀b
        rw [if_neg hne]
    · rw [hmk_ts]
      exact hrun.1

/-- C2 (amended): the claim as stated fails for non-topological seed
orders (see the counterexample); it holds when the pass is seeded with
the full id set in a topological order of the present-blocker graph
(which exists exactly when the blocker graph is acyclic).  Then every
task of the converged snapshot is BLOCKED iff it has a present blocker
whose converged state is not DONE, and every other task keeps its
pre-pass state, or TODO if it was BLOCKED before the pass. -/
theorem topo_full_pass_converges (tasks : List Task) (seed : List Nat)
    (ts : List Task) (upd : List (Nat × TaskState))
    (htopo : topoSortedB (mkMap tasks) seed = true)
    (hcomplete : ∀ t ∈ tasks, t.id ∈ seed)
    (hrun : propagateUpdates seed tasks = some (ts, upd)) :
    ∀ t' ∈ ts, ∃ t₀, mapGet (mkMap tasks) t'.id = some t₀ ∧
      t'.state = (if specBlocked t' (mkMap ts) = true then TaskState.BLOCKED
        else if t₀.state = TaskState.BLOCKED then TaskState.TODO else t₀.state) :=
  (topo_pass_spec tasks seed ts upd htopo hcomplete hrun).1

/-- C2 counterexample: the chain 1 ← 2 ← 3 (acyclic, as the topological
order [1, 2, 3] certifies) with states TODO, DONE, DONE, run with the
full id set in the order [3, 2, 1], converges to a snapshot that
violates the claimed invariant: task 3 stays DONE although its present
blocker 2 ends the pass in state BLOCKED ≠ DONE. -/
theorem full_seed_pass_leaves_stale_task :
    topoSortedB (mkMap chainTasks) [1, 2, 3] = true ∧
    chainTasks.all (fun t => ([3, 2, 1] : List Nat).contains t.id) = true ∧
    (propagateUpdates [3, 2, 1] chainTasks).map (fun r => snapshotConsistent r.1) =
      some false := by decide

/-- C2 witness: in the topologically seeded chain pass, converged task 2
(BLOCKED) satisfies the invariant against its pre-pass state DONE. -/
theorem topo_full_pass_converges_witness :
    ∃ t₀, mapGet (mkMap chainTasks) (mkTask 2 TaskState.BLOCKED [1] [3]).id = some t₀ ∧
      (mkTask 2 TaskState.BLOCKED [1] [3]).state =
        (if specBlocked (mkTask 2 TaskState.BLOCKED [1] [3]) (mkMap chainConverged) = true
          then TaskState.BLOCKED
          else if t₀.state = TaskState.BLOCKED then TaskState.TODO else t₀.state) :=
  topo_full_pass_converges chainTasks [1, 2, 3] chainConverged
    [(2, TaskState.BLOCKED), (3, TaskState.BLOCKED)]
    (by decide) (by decide) (by decide)
    (mkTask 2 TaskState.BLOCKED [1] [3]) (by decide)

end Rooftop

namespace Rooftop

theorem loop_noop (m : List (Nat × Task))
    (hcons : ∀ k t, mapGet m k = some t → desiredState t m = t.state) :
    ∀ fuel q v u mf uf, propagateLoop fuel q v m u = some (mf, uf) →
      mf = m ∧ uf = u := by
  intro fuel
  induction fuel with
  | zero =>
    intro q v u mf uf h
    cases q with
    | nil =>
      simp only [propagateLoop, Option.some.injEq, Prod.mk.injEq] at h
      exact ⟨h.1.symm, h.2.symm⟩
    | cons a l =>
      simp only [propagateLoop] at h
      exact Option.noConfusion h
  | succ n ih =>
    intro q v u mf uf h
    cases q with
    | nil =>
      simp only [propagateLoop, Option.some.injEq, Prod.mk.injEq] at h
      exact ⟨h.1.symm, h.2.symm⟩
    | cons k rest =>
      by_cases hv : k ∈ v
      · simp only [propagateLoop, if_pos hv] at h
        exact ih rest v u mf uf h
      · cases hget : mapGet m k with
        | none =>
          simp only [propagateLoop, if_neg hv, hget] at h
          exact ih rest (k :: v) u mf uf h
        | some task =>
          rw [propagateLoop_cons_present n k rest v m u task hv hget] at h
          rw [if_neg (by
            rw [hcons k task hget]
            exact fun hc => hc rfl)] at h
          exact ih _ _ u mf uf h

/-- C4 (amended): the claim as stated fails when the first pass was not
seeded in topological order (see the counterexample): such a pass can
leave a non-converged snapshot on which a re-run still produces changes.
It holds when the first pass was seeded with the full id set in a
topological order: the resulting snapshot is a fixed point, so any
further pass, with any seed, returns an empty change list and the
unchanged snapshot. -/
theorem converged_pass_is_noop (tasks : List Task) (seed seed2 : List Nat)
    (ts ts2 : List Task) (upd upd2 : List (Nat × TaskState))
    (htopo : topoSortedB (mkMap tasks) seed = true)
    (hcomplete : ∀ t ∈ tasks, t.id ∈ seed)
    (hrun : propagateUpdates seed tasks = some (ts, upd))
    (hrun2 : propagateUpdates seed2 ts = some (ts2, upd2)) :
    ts2 = ts ∧ upd2 = [] := by
  obtain ⟨_, hcons, hvals⟩ := topo_pass_spec tasks seed ts upd htopo hcomplete hrun
  simp only [propagateUpdates] at hrun2
  cases hloop : propagateLoop (propagationFuel seed2 (mkMap ts)) seed2 [] (mkMap ts) [] with
  | none =>
    rw [hloop] at hrun2
    exact Option.noConfusion hrun2
  | some r =>
    rw [hloop] at hrun2
    obtain ⟨mf2, uf2⟩ := r
    simp only [Option.some.injEq, Prod.mk.injEq] at hrun2
    obtain ⟨hm, hu⟩ := loop_noop (mkMap ts) hcons
      (propagationFuel seed2 (mkMap ts)) seed2 [] [] mf2 uf2 hloop
    constructor
    · rw [← hrun2.1, hm, hvals]
    · rw [← hrun2.2, hu]

/-- C4 counterexample: on the acyclic chain fixture, a completed pass
seeded [3, 2, 1] yields the change [(2, BLOCKED)]; re-running a pass on
its converged snapshot with the same seed does not yield an empty change
list — it yields [(3, BLOCKED)] and changes task 3's state. -/
theorem second_pass_produces_changes :
    (propagateUpdates [3, 2, 1] chainTasks).map Prod.snd =
      some [(2, TaskState.BLOCKED)] ∧
    ((propagateUpdates [3, 2, 1] chainTasks).bind
      (fun r => propagateUpdates [3, 2, 1] r.1)).map Prod.snd =
      some [(3, TaskState.BLOCKED)] := by decide

/-- C4 witness: after the topologically seeded chain pass, a second pass
seeded [2] returns the snapshot unchanged with an empty change list. -/
theorem converged_pass_is_noop_witness :
    propagateUpdates [2] chainConverged = some (chainConverged, []) ∧
    (chainConverged = chainConverged ∧ ([] : List (Nat × TaskState)) = []) :=
  ⟨by decide,
    converged_pass_is_noop chainTasks [1, 2, 3] [2] chainConverged chainConverged
      [(2, TaskState.BLOCKED), (3, TaskState.BLOCKED)] []
      (by decide) (by decide) (by decide) (by decide)⟩

end Rooftop
